import Mathlib

/-!
Verification of the token-substitution, archive-rewrite and packaging-swap
behavior of the Standard-Unlocked-Shulman setup scripts.

The Python sources are embedded shallowly:

* `strReplace` models Python's `str.replace` (all non-overlapping
  occurrences, scanned left to right) for a non-empty pattern; every call
  site in the repository passes a non-empty literal pattern.
* `replaceTokensInFiles` models the three generic passes of
  `scripts/setup_new_project.py:replace_tokens_in_files` (directory rename,
  file rename, content rewrite) over a directory tree represented as a list
  of entries.  The `cumulusci.yml` / `robot` special cases and the extra
  root-file list fall outside the modelled tree.
* `findReplaceWithFilenameProcess` models
  `FindReplaceWithFilename.process` from `tasks/deploy.py` /
  `tasks/create_package_version.py`.
* `runTask` models the control flow of
  `CreatePackageVersion._run_task` from `tasks/create_package_version.py`.
* `mainModel` models the resolution / exit logic of
  `scripts/setup_new_project.py:main`, with the results of file and
  environment reads supplied as oracle inputs.
-/

/-- Fuel-driven core of Python `str.replace`: replaces the leftmost
occurrence of `t` and continues scanning after the replaced text.  The fuel
is the length of the subject string, which always suffices. -/
def replFuel (t r : List Char) : Nat → List Char → List Char
  | 0, s => s
  | _ + 1, [] => []
  | n + 1, c :: s =>
    if t.isPrefixOf (c :: s) then r ++ replFuel t r n (s.drop (t.length - 1))
    else c :: replFuel t r n s

/-- Python `s.replace(t, r)` for non-empty `t` (for empty `t` this model
returns `s`; no call site in the repository passes an empty pattern). -/
def strReplace (s t r : String) : String :=
  if t.data.isEmpty then s else ⟨replFuel t.data r.data s.data.length s.data⟩

/-- `hasSub t s`: `t` occurs as a contiguous run inside `s`
(Python `t in s` on lists of characters). -/
def hasSub (t : List Char) : List Char → Bool
  | [] => t.isEmpty
  | c :: s => t.isPrefixOf (c :: s) || hasSub t s

/-- Python `t in s` for strings. -/
def strHas (s t : String) : Bool :=
  hasSub t.data s.data

/-- Single-character substitution, the shape `str.replace` takes when the
pattern is one character long. -/
def charSub (c : Char) (r : List Char) : List Char → List Char
  | [] => []
  | x :: s => (if x = c then r else [x]) ++ charSub c r s

/-- `derive_project_values` from `scripts/setup_new_project.py`:
repository name to (project_name, package_name, name_managed). -/
def derive_project_values (repoName : String) : String × String × String :=
  let projectName := strReplace (strReplace repoName "-" " ") "_" " "
  let packageName :=
    strReplace (strReplace (strReplace repoName "-" "") "_" "") " " ""
  (projectName, packageName, projectName)

/-- A find/replace pattern as configured for the `find_replace` transforms
and the permission-set rewrite.  `replace` is modelled after resolution of
any `$project_config.*` reference to its final string value; a Python-falsy
(absent/empty) field is modelled as `""`. -/
structure FRPattern where
  find : String
  replace : String
deriving DecidableEq

/-- The inner loop of
`AssignPermissionSetsWithFindReplace._apply_find_replace`
(`tasks/permsets.py`) on one api_name: each applicable pattern overwrites
the stored value with `api_name.replace(find, replace)` computed from the
ORIGINAL `api_name` loop variable. -/
def applyFindReplaceOne (patterns : List FRPattern) (apiName : String) : String :=
  patterns.foldl
    (fun cur p =>
      if p.find != "" && p.replace != "" then strReplace apiName p.find p.replace else cur)
    apiName

/-- `_apply_find_replace` over the whole `api_names` option list. -/
def applyFindReplaceNames (patterns : List FRPattern) (names : List String) : List String :=
  names.map (applyFindReplaceOne patterns)

/-- The filename loop of `FindReplaceWithFilename.process`
(`tasks/deploy.py` / `tasks/create_package_version.py`): each pattern with
a truthy `find` occurring in the current name rewrites the current name. -/
def rewriteEntryName (patterns : List FRPattern) (name : String) : String :=
  patterns.foldl
    (fun nn p => if p.find != "" && strHas nn p.find then strReplace nn p.find p.replace else nn)
    name

/-- Sequential application of the patterns: the left fold of the
single-pattern replacement, each later pattern seeing the output of the
earlier ones. -/
def patternFold (patterns : List FRPattern) (s : String) : String :=
  patterns.foldl (fun cur p => strReplace cur p.find p.replace) s

/-- The last pattern with truthy `find` and `replace`, which is the one
whose effect survives `_apply_find_replace`. -/
def lastApplicable (patterns : List FRPattern) : Option FRPattern :=
  (patterns.filter (fun p => p.find != "" && p.replace != "")).getLast?

/-- Modelled from the spec: the external base
`FindReplaceTransform.process` (cumulusci library, not in this repository)
is the standard substitution step that rewrites each archive entry's bytes
with every pattern and keeps entry names.  An archive is a list of
(entry name, content) pairs in archive order. -/
def contentFindReplace (patterns : List FRPattern) (ar : List (String × String)) :
    List (String × String) :=
  ar.map (fun e => (e.1, patternFold patterns e.2))

/-- Python `zipfile.ZipFile.read(name)`: with duplicate entry names the
name-to-info table keeps the LAST entry, so reading by name returns the
last content stored under that name. -/
def zipRead (ar : List (String × String)) (n : String) : String :=
  (ar.foldl (fun acc e => if e.1 == n then some e.2 else acc)
    (none : Option String)).getD ""

/-- The rebuild loop of `FindReplaceWithFilename.process`: for each name in
`namelist()` order, read that name's content and write it under the
rewritten name. -/
def rewriteNamesPass (patterns : List FRPattern) (ar : List (String × String)) :
    List (String × String) :=
  (ar.map Prod.fst).map (fun n => (rewriteEntryName patterns n, zipRead ar n))

/-- `FindReplaceWithFilename.process`: content pass (spec-modelled external
base class) followed by the filename rebuild pass (from the source). -/
def findReplaceWithFilenameProcess (patterns : List FRPattern)
    (ar : List (String × String)) : List (String × String) :=
  rewriteNamesPass patterns (contentFindReplace patterns ar)

/-- Outcome of `_apply_transforms_to_temp_source` (step 1 of
`CreatePackageVersion._run_task`): a transformed tree, `None` (source
directory missing), or an exception. -/
inductive TransformOutcome (α : Type) where
  | produced (t : α)
  | noSource
  | raised
deriving DecidableEq

/-- Environment of one `_run_task` run: whether transforms are configured
and which filesystem / API operations raise.  Each raising operation is
modelled as atomic (it raises without effect). -/
structure TaskScenario (α : Type) where
  transformsConfigured : Bool
  transformOutcome : TransformOutcome α
  rmBackupRaises : Bool
  renameRaises : Bool
  copytreeRaises : Bool
  superRaises : Bool
deriving DecidableEq

/-- The parts of the working directory `_run_task` manipulates: the
`force-app` tree and the `force-app.backup` tree (`none` = absent). -/
structure PkgFs (α : Type) where
  forceApp : Option α
  backup : Option α
deriving DecidableEq

/-- Result of a `_run_task` run: final filesystem, whether an exception
propagated out of the task, whether the base packaging step
(`super()._run_task()`) ran, and the `force-app` contents it saw. -/
structure TaskResult (α : Type) where
  fs : PkgFs α
  raised : Bool
  superRan : Bool
  superSawForceApp : Option (Option α)
deriving DecidableEq

/-- Invoking the base class `super()._run_task()` on the current tree. -/
def runSuper {α : Type} (sc : TaskScenario α) (fs : PkgFs α) : TaskResult α :=
  { fs := fs, raised := sc.superRaises, superRan := true,
    superSawForceApp := some fs.forceApp }

/-- `CreatePackageVersion._run_task` (`tasks/create_package_version.py`):
apply transforms to a temp copy, swap `force-app` for the transformed tree
(backing up the original), run the base packaging step, and restore the
backup in a `finally` around that step only.  Transform and swap failures
are caught and demoted to running the base step directly. -/
def runTask {α : Type} (sc : TaskScenario α) (fs0 : PkgFs α) : TaskResult α :=
  if !sc.transformsConfigured then runSuper sc fs0
  else
    match sc.transformOutcome with
    | TransformOutcome.noSource => runSuper sc fs0
    | TransformOutcome.raised => runSuper sc fs0
    | TransformOutcome.produced t =>
      if sc.rmBackupRaises then runSuper sc fs0
      else
        let fs1 : PkgFs α := { fs0 with backup := none }
        if sc.renameRaises then runSuper sc fs1
        else
          let fs2 : PkgFs α := { forceApp := none, backup := fs0.forceApp }
          if sc.copytreeRaises then runSuper sc fs2
          else
            let fs3 : PkgFs α := { forceApp := some t, backup := fs0.forceApp }
            let r := runSuper sc fs3
            let restored : PkgFs α :=
              if r.fs.backup.isSome then { forceApp := r.fs.backup, backup := none }
              else r.fs
            { fs := restored, raised := r.raised, superRan := r.superRan,
              superSawForceApp := r.superSawForceApp }

/-- One filesystem object under a search root: its path (list of name
components relative to the root), whether it is a directory, and its text
content (`""` for directories).  A tree is the list of its entries in
`rglob` enumeration order. -/
structure Entry where
  path : List String
  isDir : Bool
  content : String
deriving DecidableEq

/-- The `__PROJECT_NAME__` placeholder token. -/
def tokName : String := "__PROJECT_NAME__"

/-- The `__PROJECT_LABEL__` placeholder token. -/
def tokLabel : String := "__PROJECT_LABEL__"

/-- The last path component (`Path.name`). -/
def lastName (p : List String) : String := p.getLast?.getD ""

/-- `name_managed.replace(" ", "-")`. -/
def hyphenate (s : String) : String := strReplace s " " "-"

/-- Stable insertion for descending depth order (deeper paths first; equal
depths keep first-seen order), modelling
`sorted(..., key=lambda p: len(p.parts), reverse=True)`. -/
def insertDepthDesc (e : Entry) : List Entry → List Entry
  | [] => [e]
  | f :: fs =>
    if f.path.length ≤ e.path.length then e :: f :: fs else f :: insertDepthDesc e fs

/-- Stable sort by depth, deepest first. -/
def sortDepthDesc : List Entry → List Entry
  | [] => []
  | e :: fs => insertDepthDesc e (sortDepthDesc fs)

/-- The `dirs_to_rename` snapshot: directories whose own name contains a
token, deepest first, paired with the token found (`__PROJECT_NAME__`
checked first) and its replacement. -/
def dirRenameTargets (pkg mgd : String) (fs : List Entry) :
    List (List String × String × String) :=
  (sortDepthDesc fs).filterMap fun e =>
    if e.isDir then
      if strHas (lastName e.path) tokName then some (e.path, tokName, pkg)
      else if strHas (lastName e.path) tokLabel then
        some (e.path, tokLabel, hyphenate mgd)
      else none
    else none

/-- `parent / name.replace(token, replacement)`. -/
def newPathFor (p : List String) (tok repl : String) : List String :=
  p.dropLast ++ [strReplace (lastName p) tok repl]

/-- `Path.exists()` within the modelled tree. -/
def fsExists (p : List String) (fs : List Entry) : Bool :=
  fs.any fun e => e.path == p

/-- `Path.rename` on a directory: the directory and everything below it
moves to the new path. -/
def renameTree (src dst : List String) (fs : List Entry) : List Entry :=
  fs.map fun e =>
    if src.isPrefixOf e.path then { e with path := dst ++ e.path.drop src.length }
    else e

/-- `Path.rename` on a file: exactly the entries at that path move. -/
def renameExact (src dst : List String) (fs : List Entry) : List Entry :=
  fs.map fun e => if e.path == src then { e with path := dst } else e

/-- One iteration of the directory rename loop: skip when the target path
already exists and differs from the source, otherwise rename and count. -/
def dirRenameStep (acc : List Entry × Nat) (item : List String × String × String) :
    List Entry × Nat :=
  let np := newPathFor item.1 item.2.1 item.2.2
  if fsExists np acc.1 && np != item.1 then acc
  else (renameTree item.1 np acc.1, acc.2 + 1)

/-- The directory rename pass of `replace_tokens_in_files`. -/
def dirPass (pkg mgd : String) (fs : List Entry) : List Entry × Nat :=
  (dirRenameTargets pkg mgd fs).foldl dirRenameStep (fs, 0)

/-- The `files_to_rename` snapshot: files whose name contains
`__PROJECT_NAME__` (and only that token). -/
def fileRenameTargets (fs : List Entry) : List (List String) :=
  (fs.filter fun e => !e.isDir && strHas (lastName e.path) tokName).map fun e => e.path

/-- One iteration of the file rename loop. -/
def fileRenameStep (pkg : String) (acc : List Entry × Nat) (p : List String) :
    List Entry × Nat :=
  let np := newPathFor p tokName pkg
  if fsExists np acc.1 && np != p then acc
  else (renameExact p np acc.1, acc.2 + 1)

/-- The file rename pass of `replace_tokens_in_files`, run after the
directory pass. -/
def filePass (pkg : String) (fs : List Entry) : List Entry × Nat :=
  (fileRenameTargets fs).foldl (fileRenameStep pkg) (fs, 0)

/-- `str(file_path)` for the skip-pattern check. -/
def pathString (p : List String) : String := String.intercalate "/" p

/-- The content pass skip rules: any ancestor directory named `.git`, the
separately handled `cumulusci.yml`, and the `__pycache__` / `.pyc` /
`node_modules` substring patterns. -/
def skipContent (p : List String) : Bool :=
  p.dropLast.any (fun c => c == ".git") || lastName p == "cumulusci.yml" ||
    strHas (pathString p) "__pycache__" || strHas (pathString p) ".pyc" ||
    strHas (pathString p) "node_modules"

/-- The content substitution: `__PROJECT_NAME__` to the package name, then
`__PROJECT_LABEL__` to the hyphenated managed name. -/
def rewriteContent (pkg mgd : String) (c : String) : String :=
  strReplace (strReplace c tokName pkg) tokLabel (hyphenate mgd)

/-- The content pass result for one entry (directories and skipped paths
untouched). -/
def contentEntryNew (pkg mgd : String) (e : Entry) : Entry :=
  if e.isDir || skipContent e.path then e
  else { e with content := rewriteContent pkg mgd e.content }

/-- Whether the content pass counts this entry as updated (its rewritten
content differs). -/
def contentChanged (pkg mgd : String) (e : Entry) : Bool :=
  !e.isDir && !skipContent e.path && rewriteContent pkg mgd e.content != e.content

/-- The content rewrite pass: updated tree and update count. -/
def contentPass (pkg mgd : String) (fs : List Entry) : List Entry × Nat :=
  (fs.map (contentEntryNew pkg mgd), (fs.filter (contentChanged pkg mgd)).length)

/-- The three generic passes of `replace_tokens_in_files`
(`scripts/setup_new_project.py`) over one search root: directory renames,
then file renames, then content rewrites; returns the final tree, the
rename count and the update count. -/
def replaceTokensInFiles (pkg mgd : String) (fs : List Entry) :
    List Entry × Nat × Nat :=
  let d := dirPass pkg mgd fs
  let f := filePass pkg d.1
  let c := contentPass pkg mgd f.1
  (c.1, d.2 + f.2, c.2)

/-- An entry with no token in its own name or content. -/
def entryTokenFree (e : Entry) : Bool :=
  !strHas (lastName e.path) tokName && !strHas (lastName e.path) tokLabel &&
    !strHas e.content tokName && !strHas e.content tokLabel

/-- Command-line arguments of `scripts/setup_new_project.py:main`
(`None` = flag absent). -/
structure CliArgs where
  repoName : Option String
  nonInteractive : Bool
  projectName : Option String
  packageName : Option String
  nameManaged : Option String
deriving DecidableEq

/-- Results of the environment and file reads `main` performs, supplied as
oracle inputs: the `GITHUB_REPOSITORY_NAME` / `REPO_NAME` variables,
whether `CI == "true"`, the `GITHUB_REPOSITORY` value, whether
`cumulusci.yml` exists, whether the key files still contain tokens, and
the three values `get_project_values_from_cumulusci` extracts. -/
structure EnvOracle where
  githubRepositoryName : Option String
  repoNameVar : Option String
  ciTrue : Bool
  githubRepository : String
  cumulusciExists : Bool
  keyFilesHaveTokens : Bool
  cfgProject : Option String
  cfgPackage : Option String
  cfgManaged : Option String
deriving DecidableEq

/-- The interactive answers `main` may consume (pre-stripped). -/
structure UserInput where
  continueTemplate : Bool
  promptName : String
  confirmValues : Bool
deriving DecidableEq

/-- Python string truthiness of an optional value. -/
def truthy : Option String → Bool
  | none => false
  | some s => !s.isEmpty

/-- Python `a or b` on optional strings. -/
def orTruthy (a b : Option String) : Option String :=
  if truthy a then a else b

/-- Whether a string still contains a placeholder token. -/
def hasTokens (s : String) : Bool :=
  strHas s tokName || strHas s tokLabel

/-- The protected template repository slugs. -/
def templateRepos : List String :=
  ["sdbingham/standard-unlocked-shulman", "sdbingham/standardunlockedshulman"]

/-- `repo_name = args.repo_name or GITHUB_REPOSITORY_NAME or REPO_NAME`. -/
def resolveRepoName (args : CliArgs) (env : EnvOracle) : Option String :=
  orTruthy args.repoName (orTruthy env.githubRepositoryName env.repoNameVar)

/-- The identity-resolution ladder of `main`: explicit triple, derivation
from the repository name, then the config file (rejected when any of its
values still contains a token or any is missing/empty). -/
def resolvedValues (args : CliArgs) (env : EnvOracle) :
    Option (String × String × String) :=
  if truthy args.projectName && truthy args.packageName && truthy args.nameManaged then
    some (args.projectName.getD "", args.packageName.getD "", args.nameManaged.getD "")
  else if truthy (resolveRepoName args env) then
    some (derive_project_values ((resolveRepoName args env).getD ""))
  else if truthy env.cfgProject && truthy env.cfgPackage && truthy env.cfgManaged then
    if hasTokens (env.cfgProject.getD "") || hasTokens (env.cfgPackage.getD "") ||
        hasTokens (env.cfgManaged.getD "") then none
    else some (env.cfgProject.getD "", env.cfgPackage.getD "", env.cfgManaged.getD "")
  else none

/-- `scripts/setup_new_project.py:main` down to the decision to run
`replace_tokens_in_files`: returns the process exit code and whether the
token replacement ran.  Paths: the CI template-repository guard (exit 1),
the interactive template warning (cancel, exit 0), resolution failure
(exit 1 when non-interactive, else prompt; empty prompt exits 1), the
confirmation prompt (cancel, exit 0), and the replacement run (exit 0). -/
def mainModel (args : CliArgs) (env : EnvOracle) (input : UserInput) : Nat × Bool :=
  let nonI := args.nonInteractive || env.ciTrue
  if nonI && templateRepos.contains env.githubRepository.toLower then (1, false)
  else
    let warnCancel := env.cumulusciExists && !truthy (resolveRepoName args env) &&
      !truthy args.projectName && env.keyFilesHaveTokens && !nonI &&
      !input.continueTemplate
    if warnCancel then (0, false)
    else
      match resolvedValues args env with
      | some _ => if !nonI && !input.confirmValues then (0, false) else (0, true)
      | none =>
        if nonI then (1, false)
        else if input.promptName == "" then (1, false)
        else if !input.confirmValues then (0, false)
        else (0, true)

theorem replFuel_of_not_hasSub (t r : List Char) :
    ∀ (s : List Char) (n : Nat), hasSub t s = false → replFuel t r n s = s := by
  intro s
  induction s with
  | nil => intro n _; cases n <;> rfl
  | cons c s ih =>
    intro n h
    simp only [hasSub, Bool.or_eq_false_iff] at h
    cases n with
    | zero => rfl
    | succ n =>
      simp only [replFuel, h.1, Bool.false_eq_true, if_false]
      rw [ih n h.2]

theorem strReplace_of_not_strHas (s t r : String) (h : strHas s t = false) :
    strReplace s t r = s := by
  unfold strReplace
  split
  · rfl
  · rw [replFuel_of_not_hasSub t.data r.data s.data s.data.length h]

theorem replFuel_single (c : Char) (r : List Char) :
    ∀ (s : List Char) (n : Nat), s.length ≤ n →
      replFuel [c] r n s = charSub c r s := by
  intro s
  induction s with
  | nil =>
    intro n _
    cases n <;> rfl
  | cons x s ih =>
    intro n hn
    cases n with
    | zero => simp at hn
    | succ n =>
      have hlen : s.length ≤ n := by
        simpa using Nat.lt_succ_iff.mp (Nat.lt_of_lt_of_le (Nat.lt_succ_self _) (by simpa using hn))
      simp only [replFuel, charSub]
      have hpre : ([c].isPrefixOf (x :: s)) = (c == x) := by
        simp [List.isPrefixOf]
      rw [hpre]
      by_cases hx : x = c
      · subst hx
        simp only [beq_self_eq_true, if_true, List.length_cons, List.length_nil,
          Nat.sub_self, List.drop_zero]
        rw [ih n hlen]
      · have hcx : (c == x) = false := by
          simp only [beq_eq_false_iff_ne, ne_eq]
          exact fun h => hx h.symm
        simp [hcx, hx, ih n hlen]

theorem strReplace_single (s : String) (c : Char) (r : String) :
    strReplace s ⟨[c]⟩ r = ⟨charSub c r.data s.data⟩ := by
  unfold strReplace
  simp only [List.isEmpty, if_neg]
  exact congrArg String.mk (replFuel_single c r.data s.data s.data.length (Nat.le_refl _))

theorem charSub_append (c : Char) (r : List Char) :
    ∀ l1 l2 : List Char, charSub c r (l1 ++ l2) = charSub c r l1 ++ charSub c r l2 := by
  intro l1 l2
  induction l1 with
  | nil => rfl
  | cons x l ih =>
    simp [charSub, ih]

theorem charSub_separators (l : List Char) :
    charSub ' ' [] (charSub '_' [' '] (charSub '-' [' '] l)) =
      charSub ' ' [] (charSub '_' [] (charSub '-' [] l)) := by
  induction l with
  | nil => rfl
  | cons x l ih =>
    by_cases h1 : x = '-'
    · subst h1
      simp [charSub, charSub_append, ih]
    · by_cases h2 : x = '_'
      · subst h2
        simp [charSub, charSub_append, ih, h1]
      · by_cases h3 : x = ' '
        · subst h3
          simp [charSub, charSub_append, ih, h1, h2]
        · simp [charSub, charSub_append, ih, h1, h2, h3]

theorem strReplace_lit (s : String) (c : Char) (t r : String) (ht : t.data = [c]) :
    strReplace s t r = ⟨charSub c r.data s.data⟩ := by
  have hteq : t = ⟨[c]⟩ := by
    cases t
    exact congrArg String.mk ht
  rw [hteq]
  exact strReplace_single s c r

/-- C3: for every repository name, `derive_project_values` keeps
`name_managed` equal to the display name, makes the api/package name the
display name with its remaining separators (spaces) stripped, makes the
hyphenated label the display name with spaces replaced by hyphens, and on
`"My-Project_Name"` yields project_name `"My Project Name"` and
package_name `"MyProjectName"`. -/
theorem c3_derive_identity (repoName : String) :
    (derive_project_values repoName).2.2 = (derive_project_values repoName).1 ∧
    strReplace (derive_project_values repoName).1 " " "" =
      (derive_project_values repoName).2.1 ∧
    strReplace (derive_project_values repoName).2.2 " " "-" =
      strReplace (derive_project_values repoName).1 " " "-" ∧
    derive_project_values "My-Project_Name" =
      ("My Project Name", "MyProjectName", "My Project Name") := by
  refine ⟨rfl, ?_, rfl, rfl⟩
  show strReplace (strReplace (strReplace repoName "-" " ") "_" " ") " " "" =
    strReplace (strReplace (strReplace repoName "-" "") "_" "") " " ""
  rw [strReplace_lit repoName '-' "-" " " rfl,
    strReplace_lit _ '_' "_" " " rfl,
    strReplace_lit _ ' ' " " "" rfl,
    strReplace_lit repoName '-' "-" "" rfl,
    strReplace_lit _ '_' "_" "" rfl,
    strReplace_lit _ ' ' " " "" rfl]
  exact congrArg String.mk (charSub_separators repoName.data)

/-- C4: an archive with entry `"__PROJECT_NAME__Home.page"` whose content
is `"__PROJECT_NAME__"`, processed with the single pattern
{find: `"__PROJECT_NAME__"`, replace: `"Acme"`}, yields an archive with
entry `"AcmeHome.page"` whose content reads `"Acme"`. -/
theorem c4_archive_round_trip :
    findReplaceWithFilenameProcess [⟨"__PROJECT_NAME__", "Acme"⟩]
      [("__PROJECT_NAME__Home.page", "__PROJECT_NAME__")] =
      [("AcmeHome.page", "Acme")] := by
  decide

theorem strReplace_empty_pattern (s r : String) : strReplace s "" r = s := rfl

theorem rewriteEntryName_eq_patternFold :
    ∀ (patterns : List FRPattern) (n : String),
      rewriteEntryName patterns n = patternFold patterns n := by
  intro patterns
  induction patterns with
  | nil => intro n; rfl
  | cons p ps ih =>
    intro n
    simp only [rewriteEntryName, patternFold, List.foldl_cons]
    by_cases hf : p.find = ""
    · have hc : (p.find != "" && strHas n p.find) = false := by
        simp [hf]
      rw [hc]
      simp only [Bool.false_eq_true, if_false]
      rw [hf, strReplace_empty_pattern]
      exact ih n
    · by_cases hh : strHas n p.find = true
      · have : (p.find != "" && strHas n p.find) = true := by
          simp [bne, hf, hh]
        rw [this]
        simp only [if_true]
        exact ih _
      · have hh' : strHas n p.find = false := by
          simpa using hh
        have : (p.find != "" && strHas n p.find) = false := by
          simp [hh']
        rw [this]
        simp only [Bool.false_eq_true, if_false]
        rw [strReplace_of_not_strHas n p.find p.replace hh']
        exact ih n

theorem foldl_overwrite_last (s : String) :
    ∀ (ps : List FRPattern) (init : String),
      ps.foldl
        (fun cur p =>
          if p.find != "" && p.replace != "" then strReplace s p.find p.replace else cur)
        init =
        match (ps.filter (fun p => p.find != "" && p.replace != "")).getLast? with
        | none => init
        | some p => strReplace s p.find p.replace := by
  intro ps
  induction ps with
  | nil => intro init; rfl
  | cons p ps ih =>
    intro init
    simp only [List.foldl_cons, List.filter_cons]
    by_cases hap : (p.find != "" && p.replace != "") = true
    · rw [hap]
      simp only [if_true]
      rw [ih (strReplace s p.find p.replace)]
      cases hfp : ps.filter (fun p => p.find != "" && p.replace != "") with
      | nil => simp [List.getLast?]
      | cons q qs =>
        cases hg : (q :: qs).getLast? with
        | none => simp at hg
        | some x => rw [List.getLast?_cons_cons, hg]
    · have hap' : (p.find != "" && p.replace != "") = false := by simpa using hap
      rw [hap']
      simp only [Bool.false_eq_true, if_false]
      exact ih init

/-- C5 (amended): archive entry names are rewritten by the left fold of the
single-pattern replacement, so later patterns see earlier outputs; in the
permission-set path, however, every applicable pattern is applied to the
ORIGINAL api_name and the stored result is the one of the LAST applicable
pattern, so later patterns do not see the output of earlier ones. -/
theorem c5_pattern_application_order :
    (∀ (patterns : List FRPattern) (n : String),
        rewriteEntryName patterns n = patternFold patterns n) ∧
    (∀ (patterns : List FRPattern) (s : String),
        applyFindReplaceOne patterns s =
          match lastApplicable patterns with
          | none => s
          | some p => strReplace s p.find p.replace) := by
  constructor
  · exact rewriteEntryName_eq_patternFold
  · intro patterns s
    exact foldl_overwrite_last s patterns s

/-- C5 counterexample: with patterns `[{A→X}, {X→Y}]` on api_name `"AB"`,
sequential (fold) application would give `"YB"`, but
`_apply_find_replace` leaves `"AB"` because the second pattern is applied
to the original string, not to the output of the first. -/
theorem c5_counterexample_permsets_not_sequential :
    applyFindReplaceOne [⟨"A", "X"⟩, ⟨"X", "Y"⟩] "AB" = "AB" ∧
    patternFold [⟨"A", "X"⟩, ⟨"X", "Y"⟩] "AB" = "YB" ∧
    applyFindReplaceNames [⟨"A", "X"⟩, ⟨"X", "Y"⟩] ["AB"] ≠ ["YB"] := by
  refine ⟨by decide, by decide, by decide⟩

theorem zipRead_foldl_frozen (n : String) :
    ∀ (tl : List (String × String)) (acc : Option String),
      (∀ x ∈ tl, x.1 ≠ n) →
      tl.foldl (fun acc e => if e.1 == n then some e.2 else acc) acc = acc := by
  intro tl
  induction tl with
  | nil => intro acc _; rfl
  | cons e tl ih =>
    intro acc h
    simp only [List.foldl_cons]
    have he : (e.1 == n) = false := by
      simp only [beq_eq_false_iff_ne, ne_eq]
      exact h e (List.mem_cons_self e tl)
    rw [he]
    simp only [Bool.false_eq_true, if_false]
    exact ih acc fun x hx => h x (List.mem_cons_of_mem e hx)

theorem zipRead_cons_ne (e : String × String) (tl : List (String × String))
    (n : String) (h : e.1 ≠ n) : zipRead (e :: tl) n = zipRead tl n := by
  unfold zipRead
  simp only [List.foldl_cons]
  have he : (e.1 == n) = false := by
    simp only [beq_eq_false_iff_ne, ne_eq]
    exact h
  rw [he]
  simp

theorem zipRead_head (e : String × String) (tl : List (String × String))
    (h : ∀ x ∈ tl, x.1 ≠ e.1) : zipRead (e :: tl) e.1 = e.2 := by
  unfold zipRead
  simp only [List.foldl_cons, beq_self_eq_true, if_true]
  rw [zipRead_foldl_frozen e.1 tl (some e.2) h]
  rfl

theorem rewriteNamesPass_of_nodup (patterns : List FRPattern) :
    ∀ ar : List (String × String), (ar.map Prod.fst).Nodup →
      rewriteNamesPass patterns ar =
        ar.map (fun e => (rewriteEntryName patterns e.1, e.2)) := by
  intro ar
  induction ar with
  | nil => intro _; rfl
  | cons e tl ih =>
    intro h
    simp only [List.map_cons, List.nodup_cons] at h
    have hhead : ∀ x ∈ tl, x.1 ≠ e.1 := by
      intro x hx heq
      exact h.1 (heq ▸ List.mem_map_of_mem Prod.fst hx)
    simp only [rewriteNamesPass, List.map_cons]
    congr 1
    · rw [zipRead_head e tl hhead]
    · have hcong : ∀ n ∈ tl.map Prod.fst,
          (rewriteEntryName patterns n, zipRead (e :: tl) n) =
          (rewriteEntryName patterns n, zipRead tl n) := by
        intro n hn
        have hne : e.1 ≠ n := fun heq => h.1 (heq ▸ hn)
        rw [zipRead_cons_ne e tl n hne]
      rw [List.map_congr_left hcong]
      exact ih h.2

/-- C10 (amended): provided the input archive's entry names are distinct,
the filename pass writes exactly one output entry per input entry and the
content of each output entry equals the content of the corresponding input
entry after the content pass.  (With duplicate input names, reading by
name returns the last duplicate's bytes, so an earlier duplicate's content
is replaced.) -/
theorem c10_filename_pass_preserves_contents (patterns : List FRPattern)
    (ar : List (String × String)) (h : (ar.map Prod.fst).Nodup) :
    findReplaceWithFilenameProcess patterns ar =
      (contentFindReplace patterns ar).map
        (fun e => (rewriteEntryName patterns e.1, e.2)) := by
  unfold findReplaceWithFilenameProcess
  apply rewriteNamesPass_of_nodup
  have : (contentFindReplace patterns ar).map Prod.fst = ar.map Prod.fst := by
    unfold contentFindReplace
    rw [List.map_map]
    rfl
  rw [this]
  exact h

/-- C10 witness: the amended theorem applied to a concrete one-entry
archive with distinct names. -/
theorem c10_witness :
    findReplaceWithFilenameProcess [⟨"a", "b"⟩] [("x", "a")] =
      (contentFindReplace [⟨"a", "b"⟩] [("x", "a")]).map
        (fun e => (rewriteEntryName [⟨"a", "b"⟩] e.1, e.2)) :=
  c10_filename_pass_preserves_contents [⟨"a", "b"⟩] [("x", "a")] (by decide)

/-- C10 counterexample: with duplicate input entry names `"a"` the first
output entry's content is the LAST duplicate's content (`"y"`), not the
first input entry's content after the content pass (`"x"`): entry bytes
are altered even though the pattern matches nothing. -/
theorem c10_counterexample_duplicate_names :
    findReplaceWithFilenameProcess [⟨"Z", "Q"⟩] [("a", "x"), ("a", "y")] =
      [("a", "y"), ("a", "y")] ∧
    contentFindReplace [⟨"Z", "Q"⟩] [("a", "x"), ("a", "y")] =
      [("a", "x"), ("a", "y")] := by
  refine ⟨by decide, by decide⟩

/-- C1: evaluating `_run_task` at the failing input — transforms
configured and produced, the `force-app` → `force-app.backup` rename
succeeds, and the copy of the transformed tree raises — shows the run
completing (no exception) with `force-app` absent: the original tree is
NOT restored on this exit path, contradicting the guaranteed-cleanup
claim. -/
theorem c1_swap_failure_leaves_force_app_missing :
    runTask
      { transformsConfigured := true,
        transformOutcome := TransformOutcome.produced 1,
        rmBackupRaises := false, renameRaises := false,
        copytreeRaises := true, superRaises := false }
      ({ forceApp := some 0, backup := none } : PkgFs Nat) =
      { fs := { forceApp := none, backup := some 0 }, raised := false,
        superRan := true, superSawForceApp := some none } := by
  decide

/-- C9: evaluating `_run_task` at the same failing input from the
fallback's point of view — the base packaging step does run (no abort),
but it sees `force-app` absent (`superSawForceApp = some none`) rather
than the untouched original tree (`some (some 0)`). -/
theorem c9_fallback_runs_base_step_without_original_tree :
    (runTask
      { transformsConfigured := true,
        transformOutcome := TransformOutcome.produced 1,
        rmBackupRaises := false, renameRaises := false,
        copytreeRaises := true, superRaises := false }
      ({ forceApp := some 0, backup := none } : PkgFs Nat)).superRan = true ∧
    (runTask
      { transformsConfigured := true,
        transformOutcome := TransformOutcome.produced 1,
        rmBackupRaises := false, renameRaises := false,
        copytreeRaises := true, superRaises := false }
      ({ forceApp := some 0, backup := none } : PkgFs Nat)).superSawForceApp ≠
      some (some 0) := by
  refine ⟨by decide, by decide⟩

/-- On the transform-failure and pre-move swap-failure paths, and on the
packaging success/failure paths, the original tree IS restored: the
copytree-after-rename failure is the single unrestored path. -/
theorem runTask_restores_on_other_paths {α : Type} (sc : TaskScenario α)
    (fs0 : PkgFs α) (h0 : fs0.forceApp.isSome)
    (hc : sc.copytreeRaises = false) :
    (runTask sc fs0).fs.forceApp = fs0.forceApp := by
  unfold runTask runSuper
  cases htc : sc.transformsConfigured <;>
    cases sc.transformOutcome <;>
      cases hrb : sc.rmBackupRaises <;>
        cases hrn : sc.renameRaises <;>
          simp [hc, htc, hrb, hrn]
  all_goals
    cases hfa : fs0.forceApp with
    | none => rw [hfa] at h0; simp at h0
    | some a => simp [hfa]

theorem mem_insertDepthDesc (a e : Entry) :
    ∀ l : List Entry, a ∈ insertDepthDesc e l ↔ a = e ∨ a ∈ l := by
  intro l
  induction l with
  | nil => simp [insertDepthDesc]
  | cons f fs ih =>
    simp only [insertDepthDesc]
    by_cases h : f.path.length ≤ e.path.length
    · simp [h]
    · simp only [if_neg h, List.mem_cons, ih]
      tauto

theorem mem_sortDepthDesc (a : Entry) :
    ∀ l : List Entry, a ∈ sortDepthDesc l ↔ a ∈ l := by
  intro l
  induction l with
  | nil => simp [sortDepthDesc]
  | cons e fs ih =>
    simp only [sortDepthDesc, mem_insertDepthDesc, ih, List.mem_cons]

theorem rewriteContent_id (pkg mgd c : String)
    (h1 : strHas c tokName = false) (h2 : strHas c tokLabel = false) :
    rewriteContent pkg mgd c = c := by
  unfold rewriteContent
  rw [strReplace_of_not_strHas c tokName pkg h1,
    strReplace_of_not_strHas c tokLabel (hyphenate mgd) h2]

theorem replaceTokens_noop_of_tokenFree (pkg mgd : String) (fs : List Entry)
    (h : ∀ e ∈ fs, entryTokenFree e = true) :
    replaceTokensInFiles pkg mgd fs = (fs, 0, 0) := by
  have hfree : ∀ e ∈ fs, strHas (lastName e.path) tokName = false ∧
      strHas (lastName e.path) tokLabel = false ∧
      strHas e.content tokName = false ∧ strHas e.content tokLabel = false := by
    intro e he
    have := h e he
    unfold entryTokenFree at this
    simp only [Bool.and_eq_true, Bool.not_eq_true'] at this
    exact ⟨this.1.1.1, this.1.1.2, this.1.2, this.2⟩
  have hdirs : dirRenameTargets pkg mgd fs = [] := by
    unfold dirRenameTargets
    rw [List.filterMap_eq_nil_iff]
    intro e he
    rw [mem_sortDepthDesc] at he
    rcases hfree e he with ⟨h1, h2, _, _⟩
    simp [h1, h2]
  have hfiles : fileRenameTargets fs = [] := by
    unfold fileRenameTargets
    have : fs.filter (fun e => !e.isDir && strHas (lastName e.path) tokName) = [] := by
      rw [List.filter_eq_nil_iff]
      intro e he
      rcases hfree e he with ⟨h1, _, _, _⟩
      simp [h1]
    rw [this]
    rfl
  have hd : dirPass pkg mgd fs = (fs, 0) := by
    unfold dirPass
    rw [hdirs]
    rfl
  have hf : filePass pkg fs = (fs, 0) := by
    unfold filePass
    rw [hfiles]
    rfl
  have hmap : fs.map (contentEntryNew pkg mgd) = fs := by
    have : ∀ e ∈ fs, contentEntryNew pkg mgd e = e := by
      intro e he
      unfold contentEntryNew
      rcases hfree e he with ⟨_, _, h3, h4⟩
      rw [rewriteContent_id pkg mgd e.content h3 h4]
      simp
    rw [List.map_congr_left this]
    simp
  have hcnt : fs.filter (contentChanged pkg mgd) = [] := by
    rw [List.filter_eq_nil_iff]
    intro e he
    unfold contentChanged
    rcases hfree e he with ⟨_, _, h3, h4⟩
    rw [rewriteContent_id pkg mgd e.content h3 h4]
    simp
  unfold replaceTokensInFiles
  simp only [hd, hf, contentPass, hmap, hcnt]
  rfl

/-- C2 (amended): the second run of `replace_tokens_in_files` with the same
identity performs zero renames and zero content updates and leaves the tree
exactly as the first run left it, PROVIDED the first run's output contains
no token in any entry name or content.  (Without that proviso replacement
values can recombine with surrounding text into fresh tokens and the second
run changes the tree again; renames skipped over existing targets also
leave tokens behind.) -/
theorem c2_second_run_noop (pkg mgd : String) (fs : List Entry)
    (h : ∀ e ∈ (replaceTokensInFiles pkg mgd fs).1, entryTokenFree e = true) :
    replaceTokensInFiles pkg mgd (replaceTokensInFiles pkg mgd fs).1 =
      ((replaceTokensInFiles pkg mgd fs).1, 0, 0) :=
  replaceTokens_noop_of_tokenFree pkg mgd (replaceTokensInFiles pkg mgd fs).1 h

/-- C2 witness: a tree whose tokens are cleanly replaced by the first run,
so the second run is a no-op. -/
theorem c2_witness :
    replaceTokensInFiles "Acme" "Acme Co"
        (replaceTokensInFiles "Acme" "Acme Co"
          [⟨["__PROJECT_NAME__f"], false, "__PROJECT_NAME__ hello"⟩]).1 =
      ((replaceTokensInFiles "Acme" "Acme Co"
          [⟨["__PROJECT_NAME__f"], false, "__PROJECT_NAME__ hello"⟩]).1, 0, 0) :=
  c2_second_run_noop "Acme" "Acme Co"
    [⟨["__PROJECT_NAME__f"], false, "__PROJECT_NAME__ hello"⟩] (by decide)

/-- C2 counterexample: with the identity derived from repository name
`"NAME"`, replacing `__PROJECT_NAME__` inside
`"__PROJECT___PROJECT_NAME____"` recombines the surrounding text into a
fresh `"__PROJECT_NAME__"` token, so the second run performs another
content update and changes the tree again: the rewriter is not idempotent
for every starting tree. -/
theorem c2_counterexample_second_run_updates :
    derive_project_values "NAME" = ("NAME", "NAME", "NAME") ∧
    (replaceTokensInFiles "NAME" "NAME"
        (replaceTokensInFiles "NAME" "NAME"
          [⟨["f"], false, "__PROJECT___PROJECT_NAME____"⟩]).1).2.2 = 1 ∧
    (replaceTokensInFiles "NAME" "NAME"
        (replaceTokensInFiles "NAME" "NAME"
          [⟨["f"], false, "__PROJECT___PROJECT_NAME____"⟩]).1).1 ≠
      (replaceTokensInFiles "NAME" "NAME"
        [⟨["f"], false, "__PROJECT___PROJECT_NAME____"⟩]).1 := by
  refine ⟨by decide, by decide, by decide⟩

theorem dirRenameStep_skip (fs : List Entry) (cnt : Nat)
    (p : List String) (tok repl : String)
    (hex : fsExists (newPathFor p tok repl) fs = true)
    (hne : newPathFor p tok repl ≠ p) :
    dirRenameStep (fs, cnt) (p, tok, repl) = (fs, cnt) := by
  unfold dirRenameStep
  have : (fsExists (newPathFor p tok repl) fs && (newPathFor p tok repl != p)) = true := by
    simp [hex, bne_iff_ne, hne]
  simp only [this, if_true]

theorem fileRenameStep_skip (pkg : String) (fs : List Entry) (cnt : Nat)
    (p : List String)
    (hex : fsExists (newPathFor p tokName pkg) fs = true)
    (hne : newPathFor p tokName pkg ≠ p) :
    fileRenameStep pkg (fs, cnt) p = (fs, cnt) := by
  unfold fileRenameStep
  have : (fsExists (newPathFor p tokName pkg) fs && (newPathFor p tokName pkg != p)) = true := by
    simp [hex, bne_iff_ne, hne]
  simp only [this, if_true]

theorem dirPass_all_skipped_aux :
    ∀ (targets : List (List String × String × String)) (fs : List Entry) (cnt : Nat),
      (∀ item ∈ targets,
        fsExists (newPathFor item.1 item.2.1 item.2.2) fs = true ∧
          newPathFor item.1 item.2.1 item.2.2 ≠ item.1) →
      targets.foldl dirRenameStep (fs, cnt) = (fs, cnt) := by
  intro targets
  induction targets with
  | nil => intro fs cnt _; rfl
  | cons item ts ih =>
    intro fs cnt h
    rcases h item (List.mem_cons_self item ts) with ⟨hex, hne⟩
    simp only [List.foldl_cons]
    rw [show dirRenameStep (fs, cnt) item = (fs, cnt) from by
      cases item with
      | mk p rest =>
        cases rest with
        | mk tok repl => exact dirRenameStep_skip fs cnt p tok repl hex hne]
    exact ih fs cnt fun x hx => h x (List.mem_cons_of_mem item hx)

/-- C8 (amended): a rename whose computed target path already exists (and
differs from the source) is skipped and that step changes nothing: the
source and the pre-existing target survive it untouched, for the directory
and the file loop alike; when every considered rename is such a skip, the
whole directory pass returns the tree unchanged with zero renames.  (The
pre-existing target can still be moved later by its OWN rename step when
its name contains a token, so survival after the whole pass is not
guaranteed.) -/
theorem c8_skip_leaves_both_untouched :
    (∀ (fs : List Entry) (cnt : Nat) (p : List String) (tok repl : String),
      fsExists (newPathFor p tok repl) fs = true →
      newPathFor p tok repl ≠ p →
      dirRenameStep (fs, cnt) (p, tok, repl) = (fs, cnt)) ∧
    (∀ (pkg : String) (fs : List Entry) (cnt : Nat) (p : List String),
      fsExists (newPathFor p tokName pkg) fs = true →
      newPathFor p tokName pkg ≠ p →
      fileRenameStep pkg (fs, cnt) p = (fs, cnt)) ∧
    (∀ (pkg mgd : String) (fs : List Entry),
      (∀ item ∈ dirRenameTargets pkg mgd fs,
        fsExists (newPathFor item.1 item.2.1 item.2.2) fs = true ∧
          newPathFor item.1 item.2.1 item.2.2 ≠ item.1) →
      dirPass pkg mgd fs = (fs, 0)) := by
  refine ⟨dirRenameStep_skip, fileRenameStep_skip, ?_⟩
  intro pkg mgd fs h
  exact dirPass_all_skipped_aux (dirRenameTargets pkg mgd fs) fs 0 h

/-- C8 witness: the skip-frame parts applied at concrete trees where the
computed target already exists. -/
theorem c8_witness :
    dirRenameStep
        ([⟨["__PROJECT_NAME__d"], true, ""⟩, ⟨["Pd"], true, ""⟩], 0)
        (["__PROJECT_NAME__d"], tokName, "P") =
      ([⟨["__PROJECT_NAME__d"], true, ""⟩, ⟨["Pd"], true, ""⟩], 0) ∧
    fileRenameStep "P"
        ([⟨["__PROJECT_NAME__f"], false, ""⟩, ⟨["Pf"], false, ""⟩], 0)
        ["__PROJECT_NAME__f"] =
      ([⟨["__PROJECT_NAME__f"], false, ""⟩, ⟨["Pf"], false, ""⟩], 0) ∧
    dirPass "P" "M" [⟨["__PROJECT_NAME__d"], true, ""⟩, ⟨["Pd"], true, ""⟩] =
      ([⟨["__PROJECT_NAME__d"], true, ""⟩, ⟨["Pd"], true, ""⟩], 0) := by
  refine ⟨?_, ?_, ?_⟩
  · exact c8_skip_leaves_both_untouched.1 _ 0 _ tokName "P" (by decide) (by decide)
  · exact c8_skip_leaves_both_untouched.2.1 "P" _ 0 _ (by decide) (by decide)
  · exact c8_skip_leaves_both_untouched.2.2 "P" "M" _ (by decide)

/-- C8 counterexample: the first directory's rename is skipped because its
computed target `["P__PROJECT_LABEL__"]` already exists, yet after the
whole pass that pre-existing target no longer exists at its path — it was
renamed by its own (label-token) step — contradicting the claim that after
the pass both paths still exist unchanged. -/
theorem c8_counterexample_target_renamed_later :
    fsExists ["P__PROJECT_LABEL__"]
        (replaceTokensInFiles "P" "M"
          [⟨["__PROJECT_NAME____PROJECT_LABEL__"], true, ""⟩,
            ⟨["P__PROJECT_LABEL__"], true, ""⟩]).1 = false ∧
    fsExists ["__PROJECT_NAME____PROJECT_LABEL__"]
        (replaceTokensInFiles "P" "M"
          [⟨["__PROJECT_NAME____PROJECT_LABEL__"], true, ""⟩,
            ⟨["P__PROJECT_LABEL__"], true, ""⟩]).1 = true := by
  refine ⟨by decide, by decide⟩

theorem filePass_aux_preserves (pkg : String) :
    ∀ (targets : List (List String)) (fs : List Entry) (cnt : Nat) (e : Entry),
      e ∈ fs → (∀ q ∈ targets, q ≠ e.path) →
      e ∈ (targets.foldl (fileRenameStep pkg) (fs, cnt)).1 := by
  intro targets
  induction targets with
  | nil => intro fs cnt e he _; exact he
  | cons q ts ih =>
    intro fs cnt e he h
    have hqe : q ≠ e.path := h q (List.mem_cons_self q ts)
    have hstep : e ∈ (fileRenameStep pkg (fs, cnt) q).1 := by
      unfold fileRenameStep
      by_cases hc : (fsExists (newPathFor q tokName pkg) fs &&
          (newPathFor q tokName pkg != q)) = true
      · simp only [hc, if_true]
        exact he
      · simp only [eq_false_of_ne_true hc, Bool.false_eq_true, if_false]
        have hne : (e.path == q) = false := by
          simp only [beq_eq_false_iff_ne, ne_eq]
          exact fun hh => hqe hh.symm
        have hm := List.mem_map_of_mem
          (fun x => if x.path == q then { x with path := newPathFor q tokName pkg } else x) he
        simp only [hne, Bool.false_eq_true, if_false] at hm
        exact hm
    simp only [List.foldl_cons]
    have := ih (fileRenameStep pkg (fs, cnt) q).1 (fileRenameStep pkg (fs, cnt) q).2 e hstep
      (fun x hx => h x (List.mem_cons_of_mem q hx))
    simpa using this

theorem filePass_aux_paths (pkg : String) :
    ∀ (targets : List (List String)) (fs : List Entry) (cnt : Nat) (e' : Entry),
      e' ∈ (targets.foldl (fileRenameStep pkg) (fs, cnt)).1 →
      (∃ a ∈ fs, e'.path = a.path) ∨
        ∃ q ∈ targets, e'.path = newPathFor q tokName pkg := by
  intro targets
  induction targets with
  | nil =>
    intro fs cnt e' h
    exact Or.inl ⟨e', h, rfl⟩
  | cons q ts ih =>
    intro fs cnt e' h
    simp only [List.foldl_cons] at h
    have h' := ih (fileRenameStep pkg (fs, cnt) q).1 (fileRenameStep pkg (fs, cnt) q).2 e'
      (by simpa using h)
    rcases h' with ⟨a, ha, hpa⟩ | ⟨r, hr, hpr⟩
    · unfold fileRenameStep at ha
      by_cases hc : (fsExists (newPathFor q tokName pkg) fs &&
          (newPathFor q tokName pkg != q)) = true
      · simp only [hc, if_true] at ha
        exact Or.inl ⟨a, ha, hpa⟩
      · simp only [eq_false_of_ne_true hc, Bool.false_eq_true, if_false] at ha
        rcases List.mem_map.mp ha with ⟨b, hb, hba⟩
        by_cases hbq : (b.path == q) = true
        · rw [if_pos hbq] at hba
          refine Or.inr ⟨q, List.mem_cons_self q ts, ?_⟩
          rw [hpa, ← hba]
        · rw [if_neg (fun hh => hbq hh)] at hba
          exact Or.inl ⟨b, hb, by rw [hpa, ← hba]⟩
    · exact Or.inr ⟨r, List.mem_cons_of_mem q hr, hpr⟩

theorem mem_first_split {α : Type} [DecidableEq α] (a : α) :
    ∀ l : List α, a ∈ l → ∃ s t, l = s ++ a :: t ∧ a ∉ s := by
  intro l
  induction l with
  | nil => intro h; simp at h
  | cons b l' ih =>
    intro h
    by_cases hab : a = b
    · subst hab
      exact ⟨[], l', rfl, List.not_mem_nil a⟩
    · have : a ∈ l' := by
        rcases List.mem_cons.mp h with h1 | h2
        · exact absurd h1 hab
        · exact h2
      rcases ih this with ⟨s, t, heq, hns⟩
      refine ⟨b :: s, t, by rw [heq]; rfl, ?_⟩
      simp only [List.mem_cons]
      push_neg
      exact ⟨hab, hns⟩

theorem fileRenameTargets_mem (fs : List Entry) (q : List String)
    (h : q ∈ fileRenameTargets fs) :
    fsExists q fs = true ∧ strHas (lastName q) tokName = true := by
  unfold fileRenameTargets at h
  rcases List.mem_map.mp h with ⟨a, ha, hpa⟩
  have hfa := List.mem_filter.mp ha
  constructor
  · unfold fsExists
    rw [List.any_eq_true]
    exact ⟨a, hfa.1, by rw [hpa]; exact beq_self_eq_true q⟩
  · have := hfa.2
    simp only [Bool.and_eq_true] at this
    rw [← hpa]
    exact this.2

theorem filePass_ignores (pkg : String) (fs : List Entry) (e : Entry)
    (he : e ∈ fs) (htok : strHas (lastName e.path) tokName = false) :
    e ∈ (filePass pkg fs).1 := by
  unfold filePass
  apply filePass_aux_preserves pkg (fileRenameTargets fs) fs 0 e he
  intro q hq heq
  have := (fileRenameTargets_mem fs q hq).2
  rw [heq] at this
  rw [htok] at this
  exact Bool.false_ne_true this

theorem filePass_renames (pkg : String) (fs : List Entry) (e : Entry)
    (he : e ∈ fs) (hfile : e.isDir = false)
    (htok : strHas (lastName e.path) tokName = true)
    (hfresh : fsExists (newPathFor e.path tokName pkg) fs = false)
    (hdistinct : ∀ q ∈ fileRenameTargets fs, q ≠ e.path →
      newPathFor q tokName pkg ≠ newPathFor e.path tokName pkg) :
    Entry.mk (newPathFor e.path tokName pkg) false e.content ∈ (filePass pkg fs).1 := by
  have hmem : e.path ∈ fileRenameTargets fs := by
    unfold fileRenameTargets
    exact List.mem_map_of_mem _ (List.mem_filter.mpr ⟨he, by simp [hfile, htok]⟩)
  obtain ⟨s, t, hsplit, hnotin⟩ := mem_first_split e.path (fileRenameTargets fs) hmem
  unfold filePass
  rw [hsplit, List.foldl_append]
  have hsub : ∀ q ∈ s, q ∈ fileRenameTargets fs := by
    intro q hq
    rw [hsplit]
    exact List.mem_append_left _ hq
  have hsubt : ∀ q ∈ t, q ∈ fileRenameTargets fs := by
    intro q hq
    rw [hsplit]
    exact List.mem_append_right _ (List.mem_cons_of_mem _ hq)
  set F := s.foldl (fileRenameStep pkg) (fs, 0) with hF
  have heS : e ∈ F.1 :=
    filePass_aux_preserves pkg s fs 0 e he fun q hq hqe => hnotin (hqe ▸ hq)
  have hnpS : fsExists (newPathFor e.path tokName pkg) F.1 = false := by
    by_contra hcon
    have hx : ∃ x ∈ F.1, x.path = newPathFor e.path tokName pkg := by
      have hT := Bool.of_not_eq_false hcon
      unfold fsExists at hT
      rw [List.any_eq_true] at hT
      rcases hT with ⟨x, hx1, hx2⟩
      exact ⟨x, hx1, by simpa using hx2⟩
    rcases hx with ⟨x, hxm, hxp⟩
    rcases filePass_aux_paths pkg s fs 0 x (hF ▸ hxm) with ⟨a, ha, hpa⟩ | ⟨q, hq, hpq⟩
    · have hT : fsExists (newPathFor e.path tokName pkg) fs = true := by
        unfold fsExists
        rw [List.any_eq_true]
        exact ⟨a, ha, by rw [← hpa, hxp]; exact beq_self_eq_true _⟩
      rw [hfresh] at hT
      exact Bool.false_ne_true hT
    · have hqe : q ≠ e.path := fun hh => hnotin (hh ▸ hq)
      exact hdistinct q (hsub q hq) hqe (by rw [← hpq, hxp])
  simp only [List.foldl_cons]
  have hstep : fileRenameStep pkg F e.path =
      (renameExact e.path (newPathFor e.path tokName pkg) F.1, F.2 + 1) := by
    unfold fileRenameStep
    simp [hnpS]
  rw [hstep]
  have hrenamed : Entry.mk (newPathFor e.path tokName pkg) false e.content ∈
      renameExact e.path (newPathFor e.path tokName pkg) F.1 := by
    unfold renameExact
    have hm := List.mem_map_of_mem
      (fun x => if x.path == e.path then { x with path := newPathFor e.path tokName pkg }
        else x) heS
    simp only [beq_self_eq_true, if_true] at hm
    have hconv : ({ e with path := newPathFor e.path tokName pkg } : Entry) =
        Entry.mk (newPathFor e.path tokName pkg) false e.content := by
      cases e
      simp_all
    rw [hconv] at hm
    exact hm
  have hres := filePass_aux_preserves pkg t
    (renameExact e.path (newPathFor e.path tokName pkg) F.1) (F.2 + 1)
    (Entry.mk (newPathFor e.path tokName pkg) false e.content) hrenamed ?_
  · simpa using hres
  · intro q hq heq
    have hqfs := (fileRenameTargets_mem fs q (hsubt q hq)).1
    simp only at heq
    rw [heq] at hqfs
    rw [hfresh] at hqfs
    exact Bool.false_ne_true hqfs

/-- C6 (amended): the file rename pass runs after the directory pass and
matches only `__PROJECT_NAME__` in file names (the directory pass matches
both tokens): every file whose name lacks `__PROJECT_NAME__` — in
particular one containing only `__PROJECT_LABEL__` — passes through the
file pass untouched, while every file whose name contains
`__PROJECT_NAME__` is renamed with the token replaced by the package name
whenever its target path is fresh and not produced by another rename. -/
theorem c6_file_pass_matches_only_project_name :
    (∀ (pkg : String) (fs : List Entry) (e : Entry),
      e ∈ fs → strHas (lastName e.path) tokName = false →
      e ∈ (filePass pkg fs).1) ∧
    (∀ (pkg : String) (fs : List Entry) (e : Entry),
      e ∈ fs → e.isDir = false →
      strHas (lastName e.path) tokName = true →
      fsExists (newPathFor e.path tokName pkg) fs = false →
      (∀ q ∈ fileRenameTargets fs, q ≠ e.path →
        newPathFor q tokName pkg ≠ newPathFor e.path tokName pkg) →
      Entry.mk (newPathFor e.path tokName pkg) false e.content ∈ (filePass pkg fs).1) :=
  ⟨filePass_ignores, filePass_renames⟩

/-- C6 witness: a label-token file survives the file pass unrenamed, and a
name-token file is renamed with the token replaced. -/
theorem c6_witness :
    (⟨["__PROJECT_LABEL__f"], false, ""⟩ : Entry) ∈
      (filePass "P" [⟨["__PROJECT_LABEL__f"], false, ""⟩]).1 ∧
    (⟨["Pa"], false, "c"⟩ : Entry) ∈
      (filePass "P" [⟨["__PROJECT_NAME__a"], false, "c"⟩]).1 := by
  constructor
  · exact c6_file_pass_matches_only_project_name.1 "P"
      [⟨["__PROJECT_LABEL__f"], false, ""⟩] ⟨["__PROJECT_LABEL__f"], false, ""⟩
      (by decide) (by decide)
  · have h := c6_file_pass_matches_only_project_name.2 "P"
      [⟨["__PROJECT_NAME__a"], false, "c"⟩] ⟨["__PROJECT_NAME__a"], false, "c"⟩
      (by decide) (by decide) (by decide) (by decide) (by decide)
    exact h

/-- C6 counterexample: a file whose name contains only `__PROJECT_LABEL__`
is NOT renamed by the run (zero renames, tree unchanged), although the
claim says every file whose name contains a placeholder token
(`__PROJECT_NAME__` or `__PROJECT_LABEL__`) is renamed. -/
theorem c6_counterexample_label_file_not_renamed :
    (replaceTokensInFiles "P" "M" [⟨["__PROJECT_LABEL__f"], false, ""⟩]).1 =
      [⟨["__PROJECT_LABEL__f"], false, ""⟩] ∧
    (replaceTokensInFiles "P" "M" [⟨["__PROJECT_LABEL__f"], false, ""⟩]).2.1 = 0 := by
  refine ⟨by decide, by decide⟩

/-- C7: when no source yields a complete identity
(`resolvedValues = none`) and the run is non-interactive, `main` exits
with code 1 and the token replacement never runs. -/
theorem c7_non_interactive_resolution_failure_exits_one
    (args : CliArgs) (env : EnvOracle) (input : UserInput)
    (hni : (args.nonInteractive || env.ciTrue) = true)
    (hres : resolvedValues args env = none) :
    mainModel args env input = (1, false) := by
  unfold mainModel
  simp only [hni, hres, Bool.true_and, Bool.not_true, Bool.and_false, Bool.false_and,
    Bool.and_true]
  by_cases ht : templateRepos.contains env.githubRepository.toLower = true
  · simp [ht]
  · simp [eq_false_of_ne_true ht]

/-- C7 witness: a fully empty non-interactive environment exits with code
1 without replacing tokens. -/
theorem c7_witness :
    mainModel ⟨none, true, none, none, none⟩
      ⟨none, none, false, "", false, false, none, none, none⟩
      ⟨false, "", false⟩ = (1, false) :=
  c7_non_interactive_resolution_failure_exits_one _ _ _ (by decide) (by decide)
